import Mathlib

/-!
Verification of the dual-stage reasoning relay of the RAT repository
(rat-akash.py, rat-claude.py, rat-local.py, rat/rat.py).

Text is modelled as `List Char`; streamed chunks as `List Str`.
-/

namespace RAT

abbrev Str := List Char

/-- The inline reasoning start marker `"<think>"` used by the DeepSeek-R1 vendors. -/
def openTag : Str := "<think>".toList

/-- The inline reasoning end marker `"</think>"`. -/
def closeTag : Str := "</think>".toList

/-- The hand-off wrapper start marker `"<thinking>"`
(rat-akash.py line 162, rat-claude.py line 141, rat-local.py line 108). -/
def handoffOpen : Str := "<thinking>".toList

/-- The hand-off wrapper end marker `"</thinking>"`. -/
def handoffClose : Str := "</thinking>".toList

/-- `isPre pat s` : `pat` is a prefix of `s` (character-by-character). -/
def isPre : Str → Str → Bool
  | [], _ => true
  | _ :: _, [] => false
  | p :: ps, c :: cs => p == c && isPre ps cs

/-- `hasSub pat s` : `pat` occurs as a contiguous substring of `s`
(the model of Python's `pat in s`). -/
def hasSub (pat : Str) : Str → Bool
  | [] => pat.isEmpty
  | c :: cs => isPre pat (c :: cs) || hasSub pat cs

/-- The text of `s` strictly before the first occurrence of `pat`
(whole of `s` when `pat` does not occur); models `s.split(pat)[0]`. -/
def beforeFirst (pat : Str) : Str → Str
  | [] => []
  | c :: cs => if isPre pat (c :: cs) then [] else c :: beforeFirst pat cs

/-- The text of `s` strictly after the first occurrence of `pat`,
`none` when `pat` does not occur. -/
def afterFirst (pat : Str) : Str → Option Str
  | [] => if pat.isEmpty then some [] else none
  | c :: cs =>
    if isPre pat (c :: cs) then some (List.drop (pat.length - 1) cs)
    else afterFirst pat cs

/-- Fuel-indexed worker for `removeAll`.  Each step consumes at least one
character of `s`, so fuel `s.length` always suffices and the `0` fallback
is never reached on the arguments `removeAll` passes. -/
def removeAllF (pat : Str) : Nat → Str → Str
  | _, [] => []
  | 0, s => s
  | fuel + 1, c :: cs =>
    if isPre pat (c :: cs) then removeAllF pat fuel (List.drop (pat.length - 1) cs)
    else c :: removeAllF pat fuel cs

/-- Remove every (left-to-right, non-overlapping) occurrence of the non-empty
pattern `pat` from `s`; models Python's `s.replace(pat, "")`. -/
def removeAll (pat : Str) (s : Str) : Str := removeAllF pat s.length s

/-- `reasoning_content.replace("<think>", "").replace("</think>", "")`
(rat-akash.py line 142, rat-claude.py line 121). -/
def stripThink (s : Str) : Str := removeAll closeTag (removeAll openTag s)

/-! ## The akash streaming reasoning scan

rat-akash.py lines 115-123 (the identical loop appears in rat-claude.py
lines 89-97 for its akash path):

    for chunk in response:
        if chunk.choices[0].delta.content:
            content_piece = chunk.choices[0].delta.content
            reasoning_content += content_piece
            if self.show_reasoning:
                print(content_piece, end="", flush=True)
            if "</think>" in content_piece:
                break

Empty chunks are skipped by the truthiness test; skipping an empty chunk
changes neither the accumulator nor the break test, so the model processes
every fragment directly. -/

/-- The accumulated `reasoning_content` after the streaming loop: fragments are
concatenated in order and the loop stops after the first fragment that contains
`"</think>"` as a whole substring. -/
def deepseekStreamAcc : List Str → Str
  | [] => []
  | c :: rest => if hasSub closeTag c then c else c ++ deepseekStreamAcc rest

/-- The streaming loop together with the `show_reasoning` display toggle:
returns the accumulated `reasoning_content` and the list of pieces handed to
`print` (rat-akash.py lines 120-121). -/
def deepseekStreamWithDisplay (showReasoning : Bool) : List Str → Str × List Str
  | [] => ([], [])
  | c :: rest =>
    let printed : List Str := if showReasoning then [c] else []
    if hasSub closeTag c then (c, printed)
    else
      let r := deepseekStreamWithDisplay showReasoning rest
      (c ++ r.1, printed ++ r.2)

/-- The clean reasoning payload of the streaming path: the accumulated content
with both tags stripped (rat-akash.py lines 113-123 and 142). -/
def deepseekStreamPayload (fs : List Str) : Str := stripThink (deepseekStreamAcc fs)

/-- The clean reasoning payload of the non-streaming path
(rat-akash.py lines 124-130 and 142):

    reasoning_content = content
    if "</think>" in content:
        reasoning_content = content.split("</think>")[0] + "</think>"
    ...
    reasoning_content.replace("<think>", "").replace("</think>", "") -/
def deepseekSingleShotPayload (content : Str) : Str :=
  stripThink
    (if hasSub closeTag content then beforeFirst closeTag content ++ closeTag else content)

/-! ## The rat-local.py streaming reasoning scan

rat-local.py lines 59-77:

    full_response = ""
    is_thinking = False
    think_content = ""
    for chunk in response:
        ... content = chunk.choices[0].delta.content
        if content:
            full_response += content
            if "<think>" in content:
                is_thinking = True
                think_content = ""
            if is_thinking:
                think_content += content
                if "</think>" in content:
                    is_thinking = False
    extracted_think_content = re.findall(r'<think>(.*?)</think>', think_content, re.DOTALL)

Empty fragments leave the state unchanged, so they are processed directly. -/

structure LocalScan where
  full_response : Str
  is_thinking : Bool
  think_content : Str
deriving DecidableEq

/-- One iteration of the rat-local.py scanning loop. -/
def localStep (st : LocalScan) (content : Str) : LocalScan :=
  let full := st.full_response ++ content
  let isTh0 := if hasSub openTag content then true else st.is_thinking
  let tc0 : Str := if hasSub openTag content then [] else st.think_content
  if isTh0 then
    { full_response := full,
      is_thinking := if hasSub closeTag content then false else true,
      think_content := tc0 ++ content }
  else
    { full_response := full, is_thinking := isTh0, think_content := tc0 }

/-- The rat-local.py loop over all fragments, from the initial state. -/
def localScan (fs : List Str) : LocalScan :=
  fs.foldl localStep ⟨[], false, []⟩

/-- Fuel-indexed model of `re.findall(r'<think>(.*?)</think>', s, re.DOTALL)`:
repeatedly take the text strictly between the first `"<think>"` and the first
`"</think>"` after it, then continue after that `"</think>"`.  Each successful
round removes at least the two tags from the remainder, so fuel `s.length + 1`
always suffices and the `0` fallback is never reached on the arguments
`findThink` passes. -/
def findThinkF : Nat → Str → List Str
  | 0, _ => []
  | fuel + 1, s =>
    match afterFirst openTag s with
    | none => []
    | some rest =>
      if hasSub closeTag rest then
        beforeFirst closeTag rest :: findThinkF fuel ((afterFirst closeTag rest).getD [])
      else []

/-- Model of Python's `re.findall(r'<think>(.*?)</think>', s, re.DOTALL)`. -/
def findThink (s : Str) : List Str := findThinkF (s.length + 1) s

/-- The value returned by rat-local.py's `get_deepseek_reasoning` (line 89):
the list of regex captures from the accumulated `think_content`. -/
def localReasoning (fs : List Str) : List Str :=
  findThink (localScan fs).think_content

/-! ## Conversation histories and the per-turn orchestration (rat-akash.py) -/

inductive Role where
  | user
  | assistant
deriving DecidableEq

structure Message where
  role : Role
  content : Str
deriving DecidableEq

/-- The two histories held by `AkashModelChain` (rat-akash.py lines 50-51). -/
structure AkashModelChain where
  deepseek_messages : List Message
  llama_messages : List Message
deriving DecidableEq

/-- The outcome of one backend call: either the full accumulated text of the
stage, or an exception raised by the client/stream. -/
inductive StageOutcome where
  | ok (text : Str)
  | err
deriving DecidableEq

/-- The synthetic context built for the response stage
(rat-akash.py lines 160-163):

    messages = [
        {"role": "user", "content": user_input},
        {"role": "assistant", "content": f"<thinking>{reasoning}</thinking>"}
    ] -/
def handoffMessages (user_input reasoning : Str) : List Message :=
  [⟨.user, user_input⟩, ⟨.assistant, handoffOpen ++ reasoning ++ handoffClose⟩]

/-- One user turn of rat-akash.py (`get_deepseek_reasoning` followed by
`get_llama_response`), given the outcome each backend call would produce.
Returns the final histories together with the list of message contexts sent
to the backend, in order.

* `get_deepseek_reasoning` appends the user message to `deepseek_messages`
  (line 102) and then calls the backend on that history (lines 107-111);
  it has no exception handler, so on a backend error nothing further runs.
* `get_llama_response` calls the backend on the synthetic two-message context
  (lines 160-174); on success it extends `llama_messages` with the user/assistant
  pair and appends the assistant message to `deepseek_messages` (lines 189-193);
  its `except` branch (lines 198-200) performs no history mutation. -/
def runTurnLog (st : AkashModelChain) (q : Str) (reasoningOut responseOut : StageOutcome) :
    AkashModelChain × List (List Message) :=
  let ds1 := st.deepseek_messages ++ [⟨.user, q⟩]
  match reasoningOut with
  | .err => (⟨ds1, st.llama_messages⟩, [ds1])
  | .ok reasoning =>
    match responseOut with
    | .err => (⟨ds1, st.llama_messages⟩, [ds1, handoffMessages q reasoning])
    | .ok answer =>
      (⟨ds1 ++ [⟨.assistant, answer⟩],
        st.llama_messages ++ [⟨.user, q⟩, ⟨.assistant, answer⟩]⟩,
       [ds1, handoffMessages q reasoning])

/-- The history effect of one user turn of rat-akash.py. -/
def runTurn (st : AkashModelChain) (q : Str) (reasoningOut responseOut : StageOutcome) :
    AkashModelChain :=
  (runTurnLog st q reasoningOut responseOut).1

/-- The data of one fully successful turn: the query, the reasoning payload the
first stage returned, and the answer the second stage returned. -/
structure TurnInput where
  q : Str
  reasoning : Str
  answer : Str

/-- A sequence of fully successful turns starting from `st`. -/
def runSession (st : AkashModelChain) (ts : List TurnInput) : AkashModelChain :=
  ts.foldl (fun s t => runTurn s t.q (.ok t.reasoning) (.ok t.answer)) st

/-- The contents of the user messages of a history, in order. -/
def userContents (ms : List Message) : List Str :=
  ms.filterMap fun m =>
    match m.role with
    | .user => some m.content
    | .assistant => none

/-- The messages appended to either history by one successful turn. -/
def turnMsgs (t : TurnInput) : List Message :=
  [⟨.user, t.q⟩, ⟨.assistant, t.answer⟩]

/-- The `clear` command of rat-akash.py (lines 265-268) empties both histories:

    chain.deepseek_messages = []
    chain.llama_messages = [] -/
def clearAkash (_ : AkashModelChain) : AkashModelChain := ⟨[], []⟩

/-- The two histories held by rat-local.py's `ModelChain`
(lines 35-36: `deepseek_messages` and `response_messages`). -/
structure LocalModelChain where
  deepseek_messages : List Message
  response_messages : List Message
deriving DecidableEq

/-- The `clear` command of rat-local.py (lines 175-178):

    chain.deepseek_messages = []
    chain.claude_messages = []

`claude_messages` is not one of this class's histories (those are
`deepseek_messages` and `response_messages`), so the second assignment only
creates a new, otherwise unused attribute and `response_messages` keeps its
contents. -/
def clearLocal (st : LocalModelChain) : LocalModelChain :=
  { deepseek_messages := [], response_messages := st.response_messages }

end RAT

namespace RAT

/-! ## Lemmas about the string utilities -/

theorem isPre_append (p r : Str) : isPre p (p ++ r) = true := by
  induction p with
  | nil => rfl
  | cons c cs ih => simp [isPre, ih]

theorem isPre_exists {p s : Str} (h : isPre p s = true) : ∃ r, s = p ++ r := by
  induction p generalizing s with
  | nil => exact ⟨s, rfl⟩
  | cons c cs ih =>
    cases s with
    | nil => simp [isPre] at h
    | cons d ds =>
      simp only [isPre, Bool.and_eq_true, beq_iff_eq] at h
      obtain ⟨rfl, h2⟩ := h
      obtain ⟨r, rfl⟩ := ih h2
      exact ⟨r, rfl⟩

theorem hasSub_append (p : Char) (ps a r : Str) :
    hasSub (p :: ps) (a ++ (p :: ps) ++ r) = true := by
  induction a with
  | nil =>
    simp only [List.nil_append, List.cons_append, hasSub, Bool.or_eq_true]
    exact Or.inl (isPre_append (p :: ps) r)
  | cons x a' ih =>
    simp only [List.cons_append, hasSub, Bool.or_eq_true]
    exact Or.inr (by simpa [List.append_assoc] using ih)

theorem hasSub_exists {p s : Str} (h : hasSub p s = true) : ∃ t u, s = t ++ p ++ u := by
  induction s with
  | nil =>
    cases p with
    | nil => exact ⟨[], [], rfl⟩
    | cons c cs => simp [hasSub] at h
  | cons c cs ih =>
    simp only [hasSub, Bool.or_eq_true] at h
    rcases h with h1 | h2
    · obtain ⟨r, hr⟩ := isPre_exists h1
      exact ⟨[], r, by simpa using hr⟩
    · obtain ⟨t, u, hr⟩ := ih h2
      exact ⟨c :: t, u, by simp [hr]⟩

theorem afterFirst_append (p : Char) (ps a r : Str) (h : ∀ c ∈ a, c ≠ p) :
    afterFirst (p :: ps) (a ++ (p :: ps) ++ r) = some r := by
  induction a with
  | nil =>
    simp only [List.nil_append, List.cons_append, afterFirst]
    rw [if_pos (by simpa using isPre_append (p :: ps) r)]
    simp [List.drop_left' (by simp : ps.length = ps.length)]
  | cons x a' ih =>
    have hx : x ≠ p := h x (by simp)
    simp only [List.cons_append, afterFirst]
    rw [if_neg (by simp [isPre, Ne.symm hx])]
    simpa [List.append_assoc] using ih (fun c hc => h c (by simp [hc]))

theorem beforeFirst_append (p : Char) (ps a r : Str) (h : ∀ c ∈ a, c ≠ p) :
    beforeFirst (p :: ps) (a ++ (p :: ps) ++ r) = a := by
  induction a with
  | nil =>
    simp only [List.nil_append, List.cons_append, beforeFirst]
    rw [if_pos (by simpa using isPre_append (p :: ps) r)]
  | cons x a' ih =>
    have hx : x ≠ p := h x (by simp)
    simp only [List.cons_append, beforeFirst]
    rw [if_neg (by simp [isPre, Ne.symm hx])]
    simpa [List.append_assoc] using ih (fun c hc => h c (by simp [hc]))

theorem beforeFirst_last (pat a : Str) (hp : pat ≠ [])
    (H : ∀ t u, a ++ pat = t ++ pat ++ u → u = []) :
    beforeFirst pat (a ++ pat) = a := by
  induction a with
  | nil =>
    cases pat with
    | nil => simp at hp
    | cons q qs =>
      simp only [List.nil_append, beforeFirst]
      rw [if_pos (by simpa using isPre_append (q :: qs) [])]
  | cons c a' ih =>
    have hI : isPre pat (c :: (a' ++ pat)) = false := by
      by_contra hcon
      have htrue : isPre pat (c :: (a' ++ pat)) = true := by
        cases hval : isPre pat (c :: (a' ++ pat)) with
        | false => exact absurd hval hcon
        | true => rfl
      obtain ⟨u, hu⟩ := isPre_exists htrue
      have hu0 : u = [] := H [] u (by simpa using hu)
      subst hu0
      have hlen := congrArg List.length hu
      simp [List.length_append] at hlen
      have hple : 0 < pat.length := List.length_pos.mpr hp
      omega
    simp only [List.cons_append, beforeFirst]
    rw [if_neg (by simp [hI])]
    have H' : ∀ t u, a' ++ pat = t ++ pat ++ u → u = [] := by
      intro t u hd
      exact H (c :: t) u (by simp [hd])
    exact congrArg (fun z => c :: z) (ih H')

theorem afterFirst_bound (pat : Str) (hp : pat ≠ []) :
    ∀ s r, afterFirst pat s = some r → ∀ t u, s = t ++ pat ++ u → u.length ≤ r.length := by
  intro s
  induction s with
  | nil =>
    intro r h
    cases pat with
    | nil => simp at hp
    | cons q qs => simp [afterFirst] at h
  | cons c cs ih =>
    intro r h t u hdec
    by_cases hP : isPre pat (c :: cs) = true
    · rw [afterFirst.eq_def] at h
      simp only [if_pos hP] at h
      have hr := Option.some.inj h
      have hrlen : r.length = cs.length - (pat.length - 1) := by
        rw [← hr, List.length_drop]
      have hlen := congrArg List.length hdec
      simp only [List.length_append, List.length_cons] at hlen
      have hple : 0 < pat.length := List.length_pos.mpr hp
      omega
    · rw [afterFirst.eq_def] at h
      simp only [if_neg hP] at h
      cases t with
      | nil =>
        exact absurd (by simpa using hdec ▸ isPre_append pat u) hP
      | cons d t' =>
        simp only [List.cons_append, List.cons.injEq] at hdec
        exact ih r h t' u hdec.2

theorem suffix_only_of_afterFirst_nil {pat s : Str} (hp : pat ≠ [])
    (h : afterFirst pat s = some []) :
    ∀ t u, s = t ++ pat ++ u → u = [] := by
  intro t u hdec
  have hb := afterFirst_bound pat hp s [] h t u hdec
  simp only [List.length_nil, Nat.le_zero] at hb
  exact List.length_eq_zero.mp hb

end RAT

namespace RAT

/-! ## Lemmas about the streaming scans and the orchestration -/

theorem openTag_eq : openTag = '<' :: "think>".toList := by decide

theorem closeTag_eq : closeTag = '<' :: "/think>".toList := by decide

theorem closeTag_ne_nil : closeTag ≠ [] := by decide

theorem deepseekStreamAcc_single (c : Str) : deepseekStreamAcc [c] = c := by
  by_cases h : hasSub closeTag c = true
  · simp [deepseekStreamAcc, h]
  · simp [deepseekStreamAcc, h]

theorem deepseekStreamAcc_flatten (fs : List Str)
    (h : ∀ f ∈ fs.dropLast, hasSub closeTag f = false) :
    deepseekStreamAcc fs = fs.flatten := by
  induction fs with
  | nil => rfl
  | cons c rest ih =>
    cases rest with
    | nil => simpa using deepseekStreamAcc_single c
    | cons d rest' =>
      have hc : hasSub closeTag c = false := h c (by simp [List.dropLast_cons₂])
      have h' : ∀ f ∈ (d :: rest').dropLast, hasSub closeTag f = false := by
        intro f hf
        exact h f (by simp [List.dropLast_cons₂, hf])
      have step : deepseekStreamAcc (c :: (d :: rest'))
          = if hasSub closeTag c = true then c else c ++ deepseekStreamAcc (d :: rest') := rfl
      rw [step, if_neg (by simp [hc]), ih h']
      simp [List.flatten_cons]

theorem deepseekStreamAcc_flatten_of_close_suffix (fs : List Str)
    (H : ∀ t u, fs.flatten = t ++ closeTag ++ u → u = []) :
    deepseekStreamAcc fs = fs.flatten := by
  induction fs with
  | nil => rfl
  | cons c rest ih =>
    by_cases hc : hasSub closeTag c = true
    · obtain ⟨t, u, hdec⟩ := hasSub_exists hc
      have h2 : (c :: rest).flatten = t ++ closeTag ++ (u ++ rest.flatten) := by
        simp [List.flatten_cons, hdec, List.append_assoc]
      obtain ⟨hu, hrest⟩ := List.append_eq_nil.mp (H _ _ h2)
      simp [deepseekStreamAcc, hc, List.flatten_cons, hrest]
    · have H' : ∀ t u, rest.flatten = t ++ closeTag ++ u → u = [] := by
        intro t u hd
        exact H (c ++ t) u (by simp [List.flatten_cons, hd, List.append_assoc])
      simp [deepseekStreamAcc, hc, List.flatten_cons, ih H']

theorem localStep_full (st : LocalScan) (c : Str) :
    (localStep st c).full_response = st.full_response ++ c := by
  simp only [localStep]
  repeat' split
  all_goals rfl

theorem localScan_full_aux : ∀ (fs : List Str) (st : LocalScan),
    (fs.foldl localStep st).full_response = st.full_response ++ fs.flatten := by
  intro fs
  induction fs with
  | nil => intro st; simp
  | cons c rest ih =>
    intro st
    simp only [List.foldl_cons, List.flatten_cons]
    rw [ih (localStep st c), localStep_full, List.append_assoc]

theorem localScan_full (fs : List Str) : (localScan fs).full_response = fs.flatten := by
  simpa using localScan_full_aux fs ⟨[], false, []⟩

theorem findThinkF_nil (fuel : Nat) : findThinkF fuel [] = [] := by
  cases fuel with
  | zero => rfl
  | succ n =>
    have h : afterFirst openTag [] = none := by decide
    simp [findThinkF, h]

theorem findThink_single (a b : Str) (ha : ∀ c ∈ a, c ≠ '<') (hb : ∀ c ∈ b, c ≠ '<') :
    findThink (a ++ openTag ++ b ++ closeTag) = [b] := by
  have hs : a ++ openTag ++ b ++ closeTag = a ++ openTag ++ (b ++ closeTag) := by
    simp [List.append_assoc]
  have hopen : afterFirst openTag (a ++ openTag ++ (b ++ closeTag)) = some (b ++ closeTag) := by
    rw [openTag_eq]
    exact afterFirst_append '<' ("think>".toList) a (b ++ closeTag) ha
  have hclose1 : hasSub closeTag (b ++ closeTag) = true := by
    rw [closeTag_eq]
    simpa using hasSub_append '<' ("/think>".toList) b []
  have hbefore : beforeFirst closeTag (b ++ closeTag) = b := by
    rw [closeTag_eq]
    simpa using beforeFirst_append '<' ("/think>".toList) b [] hb
  have hafter : afterFirst closeTag (b ++ closeTag) = some [] := by
    rw [closeTag_eq]
    simpa using afterFirst_append '<' ("/think>".toList) b [] hb
  unfold findThink
  rw [hs, findThinkF, hopen]
  simp only [hclose1, if_true, hbefore, hafter, Option.getD_some, findThinkF_nil]

end RAT

namespace RAT

theorem runTurn_ok_ok (st : AkashModelChain) (q r a : Str) :
    runTurn st q (.ok r) (.ok a)
      = ⟨st.deepseek_messages ++ [⟨.user, q⟩, ⟨.assistant, a⟩],
         st.llama_messages ++ [⟨.user, q⟩, ⟨.assistant, a⟩]⟩ := by
  simp [runTurn, runTurnLog, List.append_assoc]

theorem runSession_eq : ∀ (ts : List TurnInput) (st : AkashModelChain),
    runSession st ts
      = ⟨st.deepseek_messages ++ (ts.map turnMsgs).flatten,
         st.llama_messages ++ (ts.map turnMsgs).flatten⟩ := by
  intro ts
  induction ts with
  | nil => intro st; simp [runSession]
  | cons t ts' ih =>
    intro st
    have hstep : runSession st (t :: ts')
        = runSession (runTurn st t.q (.ok t.reasoning) (.ok t.answer)) ts' := rfl
    rw [hstep, ih, runTurn_ok_ok]
    simp [turnMsgs, List.flatten_cons, List.append_assoc]

theorem userContents_append (l l' : List Message) :
    userContents (l ++ l') = userContents l ++ userContents l' :=
  List.filterMap_append l l' _

theorem userContents_turnMsgs_flatten (ts : List TurnInput) :
    userContents (ts.map turnMsgs).flatten = ts.map TurnInput.q := by
  induction ts with
  | nil => rfl
  | cons t ts' ih =>
    simp only [List.map_cons, List.flatten_cons, userContents_append, ih]
    simp [turnMsgs, userContents]

theorem turnMsgs_flatten_length (ts : List TurnInput) :
    ((ts.map turnMsgs).flatten).length = 2 * ts.length := by
  induction ts with
  | nil => rfl
  | cons t ts' ih =>
    simp only [List.map_cons, List.flatten_cons, List.length_append, ih, turnMsgs]
    simp
    omega

end RAT

namespace RAT

/-! ## Claim theorems -/

/-- Claim C1, counterexample.  The claim asserts that the extraction classifies
every character identically however the reasoning text is split into fragments,
and that the fragments `"<th"`, `"ink>plan A</thi"`, `"nk>"` yield the clean
payload `"plan A"`.  In rat-local.py the tags are only detected when they occur
whole inside a single fragment: on exactly those example fragments the
extraction returns no captured reasoning at all, whereas feeding the same text
as one whole fragment returns `["plan A"]`. -/
theorem c1_counterexample :
    localReasoning ["<th".toList, "ink>plan A</thi".toList, "nk>".toList] = []
    ∧ localReasoning ["<think>plan A</think>".toList] = ["plan A".toList] :=
  ⟨by decide, by decide⟩

/-- Claim C1, amended.  For the akash streaming scan (rat-akash.py lines
115-123, 142; same loop in rat-claude.py), the clean reasoning payload is
independent of the fragmentation whenever no fragment before the last one
contains the CLOSE delimiter whole — in particular whenever OPEN or CLOSE is
split at any byte boundary across two fragments.  (When a non-final fragment
does contain CLOSE whole, the break truncates later fragments, and in
rat-local.py the claim fails outright, see the counterexample.) -/
theorem c1_payload_fragmentation_invariant (fs : List Str)
    (h : ∀ f ∈ fs.dropLast, hasSub closeTag f = false) :
    deepseekStreamPayload fs = deepseekStreamPayload [fs.flatten] := by
  unfold deepseekStreamPayload
  rw [deepseekStreamAcc_flatten fs h, deepseekStreamAcc_single]

/-- Claim C1, witness: the spec's example fragments satisfy the side condition,
are classified as when fed whole, and yield the clean payload `"plan A"`. -/
theorem c1_witness :
    (∀ f ∈ (["<th".toList, "ink>plan A</thi".toList, "nk>".toList] : List Str).dropLast,
        hasSub closeTag f = false)
    ∧ deepseekStreamPayload ["<th".toList, "ink>plan A</thi".toList, "nk>".toList]
        = deepseekStreamPayload
            [(["<th".toList, "ink>plan A</thi".toList, "nk>".toList] : List Str).flatten]
    ∧ deepseekStreamPayload ["<th".toList, "ink>plan A</thi".toList, "nk>".toList]
        = "plan A".toList :=
  ⟨by decide,
   c1_payload_fragmentation_invariant ["<th".toList, "ink>plan A</thi".toList, "nk>".toList]
     (by decide),
   by decide⟩

/-- Claim C2, counterexample.  The claim asserts that for a trailing unmatched
OPEN everything after it is classified inside-delimiter.  In rat-local.py a
stream consisting of the single fragment `"<think>plan"` produces an empty
extraction: the text `"plan"` after the unmatched OPEN is dropped, not
classified inside. -/
theorem c2_counterexample :
    localReasoning ["<think>plan".toList] = [] ∧ ("plan".toList : Str) ≠ [] :=
  ⟨by decide, by decide⟩

/-- Claim C2, amended.  In rat-local.py, the `full_response` accumulator always
reproduces the concatenation of the input fragments exactly, and for a fragment
of the form `a ++ OPEN ++ b ++ CLOSE` where `a` and `b` contain no `'<'`, the
extraction returns exactly the text strictly between the matched OPEN/CLOSE
pair; but text after a trailing unmatched OPEN is dropped (see the
counterexample), not classified inside-delimiter. -/
theorem c2_coverage (fs : List Str) (a b : Str)
    (ha : ∀ c ∈ a, c ≠ '<') (hb : ∀ c ∈ b, c ≠ '<') :
    (localScan fs).full_response = fs.flatten
    ∧ localReasoning [a ++ openTag ++ b ++ closeTag] = [b] := by
  constructor
  · exact localScan_full fs
  · have hopen : hasSub openTag (a ++ openTag ++ b ++ closeTag) = true := by
      rw [openTag_eq]
      simpa [List.append_assoc] using hasSub_append '<' ("think>".toList) a (b ++ closeTag)
    have hopen' : hasSub openTag (a ++ (openTag ++ (b ++ closeTag))) = true := by
      simpa [List.append_assoc] using hopen
    have hscan : (localScan [a ++ openTag ++ b ++ closeTag]).think_content
        = a ++ openTag ++ b ++ closeTag := by
      simp [localScan, localStep, List.append_assoc, hopen']
    unfold localReasoning
    rw [hscan]
    exact findThink_single a b ha hb

/-- Claim C2, witness at concrete inputs. -/
theorem c2_witness :
    (∀ c ∈ ("say ".toList : Str), c ≠ '<')
    ∧ (localScan [("say hello".toList : Str)]).full_response
        = ([("say hello".toList : Str)] : List Str).flatten
    ∧ localReasoning [("say ".toList : Str) ++ openTag ++ ("plan A".toList : Str) ++ closeTag]
        = [("plan A".toList : Str)] :=
  ⟨by decide,
   (c2_coverage ["say hello".toList] ("say ".toList) ("plan A".toList)
      (by decide) (by decide)).1,
   (c2_coverage ["say hello".toList] ("say ".toList) ("plan A".toList)
      (by decide) (by decide)).2⟩

/-- Claim C3, counterexample.  The claim asserts a failed turn appends zero
messages to either history.  Starting from empty histories, a turn whose
response stage fails leaves the reasoning history with the turn's user message:
rat-akash.py appends the user message (line 102) before any backend call and
never rolls it back. -/
theorem c3_counterexample :
    (runTurn ⟨[], []⟩ ("hi".toList) (.ok ("plan".toList)) .err).deepseek_messages
      = [⟨.user, "hi".toList⟩]
    ∧ ([⟨.user, "hi".toList⟩] : List Message) ≠ [] :=
  ⟨rfl, by decide⟩

/-- Claim C3, amended.  A turn in which either stage fails leaves the response
history unchanged and appends no assistant message to either history, but the
reasoning history ends with the turn's user message appended (it is appended
before the backend is invoked and there is no rollback on failure). -/
theorem c3_failed_turn (st : AkashModelChain) (q : Str) (rOut respOut : StageOutcome)
    (h : rOut = .err ∨ respOut = .err) :
    runTurn st q rOut respOut
      = ⟨st.deepseek_messages ++ [⟨.user, q⟩], st.llama_messages⟩ := by
  rcases h with h | h
  · subst h; rfl
  · subst h; cases rOut <;> rfl

/-- Claim C3, witness at a concrete failing turn. -/
theorem c3_witness :
    ((StageOutcome.ok ("p".toList) = StageOutcome.err) ∨ (StageOutcome.err = StageOutcome.err))
    ∧ runTurn ⟨[], []⟩ ("hi".toList) (.ok ("p".toList)) .err
        = ⟨[⟨.user, "hi".toList⟩], []⟩ :=
  ⟨Or.inr rfl, c3_failed_turn ⟨[], []⟩ ("hi".toList) (.ok ("p".toList)) .err (Or.inr rfl)⟩

/-- Claim C4: the `clear` command of rat-local.py does not empty both
histories.  After a successful turn both histories are non-empty; executing
`clear` empties `deepseek_messages` but assigns to the non-existent attribute
`claude_messages` instead of `response_messages`, so the response history keeps
its messages — one history is emptied without the other.  (The akash variant's
`clear` does empty both, shown in the last conjunct.) -/
theorem c4_local_clear_bug :
    clearLocal ⟨[⟨.user, "hi".toList⟩, ⟨.assistant, "fine".toList⟩],
                [⟨.user, "hi".toList⟩, ⟨.assistant, "fine".toList⟩]⟩
      = ⟨[], [⟨.user, "hi".toList⟩, ⟨.assistant, "fine".toList⟩]⟩
    ∧ ([⟨.user, "hi".toList⟩, ⟨.assistant, "fine".toList⟩] : List Message) ≠ []
    ∧ ∀ st : AkashModelChain, clearAkash st = ⟨[], []⟩ :=
  ⟨rfl, by decide, fun _ => rfl⟩

/-- Claim C5: the response stage of rat-akash.py is invoked with exactly the
synthetic two-message context — the user's query followed by one assistant
message holding the reasoning wrapped in the fixed
`"<thinking>"`/`"</thinking>"` template — and not with the accumulated
histories: the logged backend requests of a turn are the reasoning history for
stage one and this two-message context for stage two, whatever the state of
`llama_messages`.  The wrapper template is parseable: it is injective in the
wrapped payload. -/
theorem c5_handoff_context (st : AkashModelChain) (q r r' : Str) (respOut : StageOutcome) :
    (runTurnLog st q (.ok r) respOut).2
      = [st.deepseek_messages ++ [⟨.user, q⟩],
         [⟨.user, q⟩, ⟨.assistant, handoffOpen ++ r ++ handoffClose⟩]]
    ∧ (handoffOpen ++ r ++ handoffClose = handoffOpen ++ r' ++ handoffClose → r = r') := by
  constructor
  · cases respOut <;> rfl
  · intro h
    simpa using h

/-- Claim C5, witness at a concrete turn. -/
theorem c5_witness :
    (runTurnLog ⟨[], []⟩ ("hi".toList) (.ok ("plan A".toList)) .err).2
      = [[⟨.user, "hi".toList⟩],
         [⟨.user, "hi".toList⟩, ⟨.assistant, handoffOpen ++ "plan A".toList ++ handoffClose⟩]]
    ∧ ("plan A".toList : Str) = "plan A".toList :=
  ⟨(c5_handoff_context ⟨[], []⟩ ("hi".toList) ("plan A".toList) ("plan A".toList) .err).1,
   (c5_handoff_context ⟨[], []⟩ ("hi".toList) ("plan A".toList) ("plan A".toList) .err).2 rfl⟩

/-- Claim C6, counterexample.  The claim asserts the clean reasoning payload is
identical across delivery modes for the same total content.  For the content
`"<think>A</think>B"` the streaming path keeps everything in the fragment that
contains CLOSE and yields `"AB"`, while the non-streaming path truncates at the
first CLOSE and yields `"A"`. -/
theorem c6_counterexample :
    deepseekStreamPayload ["<think>A</think>B".toList] = "AB".toList
    ∧ deepseekSingleShotPayload ("<think>A</think>B".toList) = "A".toList
    ∧ ("AB".toList : Str) ≠ "A".toList :=
  ⟨by decide, by decide, by decide⟩

/-- Claim C6, amended.  When the reasoning content ends exactly at the CLOSE
delimiter (CLOSE occurs only as the final suffix of the total content), every
streaming fragmentation — early-stopping or running to natural completion —
and the non-streaming single-shot path produce the same clean reasoning
payload. -/
theorem c6_transport_equivalence (p : Str) (fs : List Str)
    (h1 : afterFirst closeTag (p ++ closeTag) = some [])
    (h2 : fs.flatten = p ++ closeTag) :
    deepseekStreamPayload fs = deepseekSingleShotPayload (p ++ closeTag) := by
  have H : ∀ t u, p ++ closeTag = t ++ closeTag ++ u → u = [] :=
    suffix_only_of_afterFirst_nil closeTag_ne_nil h1
  have H' : ∀ t u, fs.flatten = t ++ closeTag ++ u → u = [] := by
    intro t u hd
    exact H t u (h2.symm.trans hd)
  have hacc : deepseekStreamAcc fs = p ++ closeTag := by
    rw [deepseekStreamAcc_flatten_of_close_suffix fs H', h2]
  have hsub : hasSub closeTag (p ++ closeTag) = true := by
    rw [closeTag_eq]
    simpa using hasSub_append '<' ("/think>".toList) p []
  have hbefore : beforeFirst closeTag (p ++ closeTag) = p := beforeFirst_last closeTag p closeTag_ne_nil H
  unfold deepseekStreamPayload deepseekSingleShotPayload
  rw [hacc, if_pos hsub, hbefore]

/-- Claim C6, witness: a concrete content ending at CLOSE, split with both
delimiters straddling fragment boundaries, agrees with the single-shot path. -/
theorem c6_witness :
    afterFirst closeTag ("<think>plan A".toList ++ closeTag) = some []
    ∧ (["<th".toList, "ink>plan A</thi".toList, "nk>".toList] : List Str).flatten
        = "<think>plan A".toList ++ closeTag
    ∧ deepseekStreamPayload ["<th".toList, "ink>plan A</thi".toList, "nk>".toList]
        = deepseekSingleShotPayload ("<think>plan A".toList ++ closeTag) :=
  ⟨by decide, by decide,
   c6_transport_equivalence ("<think>plan A".toList)
     ["<th".toList, "ink>plan A</thi".toList, "nk>".toList] (by decide) (by decide)⟩

/-- Claim C7: one successful turn appends exactly one user and one assistant
message to each history of rat-akash.py, and after N successful turns both
histories hold exactly N user messages, with identical contents in identical
order, and 2N messages in total. -/
theorem c7_history_alignment (ts : List TurnInput) (st : AkashModelChain) (q r a : Str) :
    runTurn st q (.ok r) (.ok a)
      = ⟨st.deepseek_messages ++ [⟨.user, q⟩, ⟨.assistant, a⟩],
         st.llama_messages ++ [⟨.user, q⟩, ⟨.assistant, a⟩]⟩
    ∧ userContents (runSession ⟨[], []⟩ ts).deepseek_messages = ts.map TurnInput.q
    ∧ userContents (runSession ⟨[], []⟩ ts).llama_messages = ts.map TurnInput.q
    ∧ (runSession ⟨[], []⟩ ts).deepseek_messages.length = 2 * ts.length
    ∧ (runSession ⟨[], []⟩ ts).llama_messages.length = 2 * ts.length := by
  have hs : runSession ⟨[], []⟩ ts
      = ⟨(ts.map turnMsgs).flatten, (ts.map turnMsgs).flatten⟩ := runSession_eq ts ⟨[], []⟩
  refine ⟨runTurn_ok_ok st q r a, ?_, ?_, ?_, ?_⟩
  · rw [hs]; exact userContents_turnMsgs_flatten ts
  · rw [hs]; exact userContents_turnMsgs_flatten ts
  · rw [hs]; exact turnMsgs_flatten_length ts
  · rw [hs]; exact turnMsgs_flatten_length ts

/-- Claim C8: a turn of rat-akash.py whose reasoning stage succeeded and whose
response stage failed leaves the reasoning history with exactly the turn's user
message appended (no trailing assistant message) and the response history
unchanged. -/
theorem c8_response_failure (st : AkashModelChain) (q r : Str) :
    (runTurn st q (.ok r) .err).deepseek_messages = st.deepseek_messages ++ [⟨.user, q⟩]
    ∧ (runTurn st q (.ok r) .err).llama_messages = st.llama_messages :=
  ⟨rfl, rfl⟩

/-- Claim C9: the `show_reasoning` display toggle of rat-akash.py affects only
what is printed, never what is accumulated: the accumulated
`reasoning_content` is the same function of the fragments with the toggle on
and off, and equals the plain accumulation semantics used for the hand-off. -/
theorem c9_display_toggle (showReasoning : Bool) (fs : List Str) :
    (deepseekStreamWithDisplay true fs).1 = (deepseekStreamWithDisplay false fs).1
    ∧ (deepseekStreamWithDisplay showReasoning fs).1 = deepseekStreamAcc fs := by
  have key : ∀ (b : Bool) (gs : List Str),
      (deepseekStreamWithDisplay b gs).1 = deepseekStreamAcc gs := by
    intro b gs
    induction gs with
    | nil => rfl
    | cons c rest ih =>
      by_cases hc : hasSub closeTag c = true
      · simp [deepseekStreamWithDisplay, deepseekStreamAcc, hc]
      · simp [deepseekStreamWithDisplay, deepseekStreamAcc, hc, ih]
  exact ⟨(key true fs).trans (key false fs).symm, key showReasoning fs⟩

end RAT
